import Mathlib

/-!
# Verification of the Cycle-Based Compressor

Shallow embedding of `src/codes/c/cycle_based_compressor.c` and proofs of the
specification's claims about it.

Bytes are modelled as `Nat` (the C code only ever stores values `0..255`
in them); the NUL-terminated `const char *` input of the C functions is
modelled as a `List Nat` together with an explicit `takeWhile (· != 0)`
step that plays the role of `strlen`.  The two `exit(1)` calls reachable
from `compress_cycle_based` (oversized alphabet, LUT miss) are modelled by
the `CResult.abort` constructor; the `fprintf` diagnostics of
`decompress_cycle_based` (invalid header, pair not found) are modelled by
the `DStatus.corrupt` status.  Allocation failure is a resource concern
outside the shallow embedding.
-/

/-! ## Generic list helpers -/

/-- Concatenation of the images of a list under a list-valued function. -/
def concatMap (f : α → List β) : List α → List β
  | [] => []
  | a :: l => f a ++ concatMap f l

theorem concatMap_nil (f : α → List β) : concatMap f [] = [] := rfl

theorem concatMap_cons (f : α → List β) (a : α) (l : List α) :
    concatMap f (a :: l) = f a ++ concatMap f l := rfl

theorem concatMap_append (f : α → List β) (l₁ l₂ : List α) :
    concatMap f (l₁ ++ l₂) = concatMap f l₁ ++ concatMap f l₂ := by
  induction l₁ with
  | nil => rfl
  | cons a t ih => simp [concatMap_cons, ih, List.append_assoc]

theorem mem_concatMap {f : α → List β} {b : β} {l : List α} :
    b ∈ concatMap f l ↔ ∃ a ∈ l, b ∈ f a := by
  induction l with
  | nil => simp [concatMap]
  | cons a t ih => simp [concatMap_cons, ih]

theorem concatMap_congr {f g : α → List β} {l : List α}
    (h : ∀ a ∈ l, f a = g a) : concatMap f l = concatMap g l := by
  induction l with
  | nil => rfl
  | cons a t ih =>
    simp only [concatMap_cons, h a (by simp)]
    rw [ih (fun a ha => h a (by simp [ha]))]

theorem getD_append_lt {α : Type _} (l₁ l₂ : List α) (d : α) :
    ∀ i, i < l₁.length → (l₁ ++ l₂).getD i d = l₁.getD i d := by
  induction l₁ with
  | nil => intro i h; simp at h
  | cons a t ih =>
    intro i h
    cases i with
    | zero => rfl
    | succ k => simpa using ih k (by simpa using h)

theorem getD_append_ge {α : Type _} (l₁ l₂ : List α) (d : α) :
    ∀ i, l₁.length ≤ i → (l₁ ++ l₂).getD i d = l₂.getD (i - l₁.length) d := by
  induction l₁ with
  | nil => intro i _; simp
  | cons a t ih =>
    intro i h
    cases i with
    | zero => simp at h
    | succ k => simpa using ih k (by simpa using h)

theorem getD_replicate {α : Type _} (a d : α) :
    ∀ n i, i < n → (List.replicate n a).getD i d = a := by
  intro n
  induction n with
  | zero => intro i h; omega
  | succ k ih =>
    intro i h
    cases i with
    | zero => rfl
    | succ j =>
      rw [List.replicate_succ, List.getD_cons_succ]
      exact ih j (by omega)

theorem getD_nil {α : Type _} (d : α) (i : Nat) : ([] : List α).getD i d = d := by
  cases i <;> rfl

theorem take_append_sub {α : Type _} (l₁ l₂ : List α) :
    ∀ n, (l₁ ++ l₂).take n = l₁.take n ++ l₂.take (n - l₁.length) := by
  induction l₁ with
  | nil => intro n; simp
  | cons a t ih =>
    intro n
    cases n with
    | zero => simp
    | succ k => simp [ih k]

theorem take_append_len {α : Type _} (l₁ l₂ : List α) (h : l₁.length = n) :
    (l₁ ++ l₂).take n = l₁ := by
  subst h
  rw [take_append_sub]
  simp

theorem drop_append_len {α : Type _} (l₁ l₂ : List α) (h : l₁.length = n) :
    (l₁ ++ l₂).drop n = l₂ := by
  subst h
  induction l₁ with
  | nil => simp
  | cons a t ih =>
    simp only [List.length_cons, List.cons_append, List.drop_succ_cons]
    exact ih

theorem length_filter_add_not {α : Type _} (p : α → Bool) (l : List α) :
    (l.filter p).length + (l.filter (fun a => !(p a))).length = l.length := by
  induction l with
  | nil => rfl
  | cons a t ih =>
    by_cases h : p a <;> simp [List.filter_cons, h, ← ih] <;> omega

theorem takeWhile_all {p : α → Bool} {l : List α} (h : ∀ a ∈ l, p a) :
    l.takeWhile p = l := by
  induction l with
  | nil => rfl
  | cons a t ih =>
    rw [List.takeWhile_cons, if_pos (h a (by simp))]
    rw [ih (fun a ha => h a (by simp [ha]))]

theorem mem_takeWhile_mem {p : α → Bool} : ∀ {l : List α} {a : α},
    a ∈ l.takeWhile p → a ∈ l := by
  intro l
  induction l with
  | nil => intro a h; simp at h
  | cons x t ih =>
    intro a h
    rw [List.takeWhile_cons] at h
    by_cases hx : p x
    · rw [if_pos hx] at h
      rcases List.mem_cons.mp h with rfl | h2
      · exact List.mem_cons_self _ _
      · exact List.mem_cons_of_mem _ (ih h2)
    · rw [if_neg hx] at h
      simp at h

theorem find?_map_pred {α β : Type _} (f : α → β) (p : β → Bool) (l : List α) :
    (l.map f).find? p = (l.find? (fun a => p (f a))).map f := by
  induction l with
  | nil => rfl
  | cons a t ih =>
    by_cases h : p (f a) <;> simp [List.find?, h, ih]

/-! ## Data model

The `CodeEntry` structure mirrors the C `CodeEntry` struct (symbol,
frequency, cycle pair `(m, j)`), and `BitWriter` mirrors the C `BitWriter`
(byte data plus the bit cursor inside the last byte; the `capacity` field
is a resource-management detail with no logical content and is omitted). -/

/-- Entry of the code table, as in the C struct `CodeEntry`. -/
structure CodeEntry where
  symbol : Nat
  freq : Nat
  m : Nat
  j : Nat
deriving DecidableEq, Repr

/-- State of the bit-level output writer, as in the C struct `BitWriter`:
`data` is the list of bytes in use (`size` is its length) and `bit_pos`
the next free bit position `0..8` inside the last byte. -/
structure BitWriter where
  data : List Nat
  bit_pos : Nat
deriving DecidableEq, Repr

/-- Result of `compress_cycle_based`: either the compressed buffer, or a
process abort (the C code calls `exit(1)` on an oversized alphabet and on
an internal LUT miss). -/
inductive CResult where
  | ok : List Nat → CResult
  | abort : CResult
deriving DecidableEq, Repr

/-- Status signalled by `decompress_cycle_based`: `corrupt` models the two
`fprintf(stderr, ...)` diagnostics (invalid header; `(m,j)` pair not found
in the code table), after which the decoder returns what it has. -/
inductive DStatus where
  | ok : DStatus
  | corrupt : DStatus
deriving DecidableEq, Repr

/-! ## BitWriter (C lines 38-104) -/

/-- Fresh writer, as left by `bw_init` (no bytes used, cursor at 0). -/
def bwInit : BitWriter := ⟨[], 0⟩

/-- Bitwise-or a mask into the last byte of a byte list; models
`bw->data[bw->size - 1] |= mask`. -/
def setLastOr : List Nat → Nat → List Nat
  | [], _ => []
  | [b], mask => [b ||| mask]
  | b :: c :: rest, mask => b :: setLastOr (c :: rest) mask

/-- Models `bw_put_bit` (C lines 74-94): start a byte if none is open,
open a new byte when the cursor reaches 8, then set bit `7 - bit_pos` of
the last byte if the written bit is 1. -/
def bw_put_bit (bw : BitWriter) (bit : Bool) : BitWriter :=
  let bw1 := if bw.data.length = 0 ∧ bw.bit_pos = 0 then BitWriter.mk [0] 0 else bw
  let bw2 := if bw1.bit_pos = 8 then BitWriter.mk (bw1.data ++ [0]) 0 else bw1
  if bit then
    BitWriter.mk (setLastOr bw2.data (2 ^ (7 - bw2.bit_pos))) (bw2.bit_pos + 1)
  else
    BitWriter.mk bw2.data (bw2.bit_pos + 1)

/-- Write a list of bits one by one. -/
def bw_put_bits (bw : BitWriter) (l : List Bool) : BitWriter :=
  l.foldl bw_put_bit bw

/-- Models `bw_put_cycle` (C lines 97-104): `m` zero bits then `j` one bits. -/
def bw_put_cycle (bw : BitWriter) (m j : Nat) : BitWriter :=
  bw_put_bits (bw_put_bits bw (List.replicate m false)) (List.replicate j true)

/-- The bit sequence `0^m 1^j` of the cycle code `(m, j)`. -/
def cycleBits (m j : Nat) : List Bool :=
  List.replicate m false ++ List.replicate j true

/-- Bit `i` of a byte buffer, MSB first inside each byte; models the C
expression `(payload[bit_index / 8] >> (7 - bit_index % 8)) & 1` (reads
out of range yield 0, as the decoder never performs them). -/
def getBit (payload : List Nat) (i : Nat) : Bool :=
  (((payload.getD (i / 8) 0) >>> (7 - i % 8)) &&& 1) == 1

/-! ## Frequency counting and sorting (C lines 110-134) -/

/-- Models `count_character_frequency` (C lines 110-118): occurrences of
byte value `c` among the bytes of the string `s` (the caller has already
cut `s` at the first NUL, as `strlen` does). -/
def count_character_frequency (s : List Nat) (c : Nat) : Nat :=
  s.count c

/-- The code table before sorting, as built by `compress_cycle_based`
(C lines 184-194): one entry per byte value `0..255` with positive
frequency, in increasing symbol order, with `m = j = 0`. -/
def buildInitialCodes (s : List Nat) : List CodeEntry :=
  (List.range 256).filterMap (fun c =>
    if 0 < count_character_frequency s c then
      some ⟨c, count_character_frequency s c, 0, 0⟩
    else none)

/-- The strict-on-distinct-symbols total order of `compare_codeentry`
(C lines 124-134): higher frequency first, ties by ascending symbol. -/
def entryLE (a b : CodeEntry) : Prop :=
  b.freq < a.freq ∨ (a.freq = b.freq ∧ a.symbol ≤ b.symbol)

instance : DecidableRel entryLE := fun a b => by
  unfold entryLE; infer_instance

instance : IsTotal CodeEntry entryLE :=
  ⟨fun a b => by unfold entryLE; omega⟩

instance : IsTrans CodeEntry entryLE :=
  ⟨fun a b c hab hbc => by unfold entryLE at *; omega⟩

/-- Models the `qsort(codes, K, sizeof(CodeEntry), compare_codeentry)`
call (C line 210).  Since `compare_codeentry` never returns 0 on two
entries with distinct symbols (and `buildInitialCodes` produces distinct
symbols), the sorted permutation is unique, so any sorting algorithm
computes it; we use insertion sort. -/
def sortCodes (l : List CodeEntry) : List CodeEntry :=
  l.insertionSort entryLE

/-! ## Cycle generation (C lines 147-160) -/

/-- The pairs emitted for one total length `L`, innermost loop of
`generate_cycles_for_codes`: `(m, j) = (L-1, 1), (L-2, 2), ..., (1, L-1)`. -/
def groupPairs (L : Nat) : List (Nat × Nat) :=
  (List.range (L - 1)).map (fun i => (L - 1 - i, i + 1))

/-- The `while (count < K)` loop of `generate_cycles_for_codes`
(C lines 151-159), with `r = K - count` pairs still to emit and `fuel` an
explicit bound on the number of outer iterations (each iteration with
`L ≥ 2` emits at least one pair, so `fuel = K` suffices). -/
def generate_cycles_go : Nat → Nat → Nat → List (Nat × Nat)
  | 0, _, _ => []
  | fuel + 1, r, L =>
    if r = 0 then []
    else
      let g := groupPairs L
      g.take r ++ generate_cycles_go fuel (r - g.length) (L + 1)

/-- Models `generate_cycles_for_codes` (C lines 147-160): the sequence of
`(m, j)` pairs assigned to ranks `0..K-1`, starting at length `L = 2`. -/
def generate_cycles_for_codes (K : Nat) : List (Nat × Nat) :=
  generate_cycles_go K K 2

/-- Modelled from the spec's pseudocode (§4.2): the canonical enumeration
`for L = 2, 3, ...: for m = L-1 downTo 1: emit (m, L - m)`, truncated to
the first `K` pairs.  Stated independently of the C loop so that the C
loop can be proved to refine it. -/
def canonicalPairs (K : Nat) : List (Nat × Nat) :=
  (((List.range K).map (fun i => 2 + i)).flatMap
    (fun L => (List.range (L - 1)).map (fun i => (L - 1 - i, L - (L - 1 - i))))).take K

/-- The lengths `L, L+1, ..., L+n-1` of the first `n` groups. -/
def LvalsFrom (L n : Nat) : List Nat :=
  (List.range n).map (fun i => L + i)

/-- The full (untruncated) enumeration over the first `n` groups starting
at total length `L`. -/
def cycleEnum (L n : Nat) : List (Nat × Nat) :=
  concatMap groupPairs (LvalsFrom L n)

/-! ## Compression (C lines 177-261) -/

/-- Models the `lut` lookup of `compress_cycle_based` (C lines 216-220 and
229): the entry whose symbol is `c`.  The C code stores the index of the
last entry with symbol `c` and `find?` returns the first one; the two
agree because the table's symbols are distinct. -/
def codeOf (codes : List CodeEntry) (c : Nat) : Option CodeEntry :=
  codes.find? (fun e => e.symbol == c)

/-- Copy the generated `(m, j)` pairs into the sorted entries, as
`generate_cycles_for_codes(codes, K)` does in place (C line 213). -/
def assignPairs (sorted : List CodeEntry) (pairs : List (Nat × Nat)) : List CodeEntry :=
  sorted.zipWith (fun e p => ⟨e.symbol, e.freq, p.1, p.2⟩) pairs

/-- The payload-writing loop of `compress_cycle_based` (C lines 226-235):
for each input byte, look its entry up and append the cycle `0^m 1^j`;
a LUT miss is the C code's `exit(1)` at line 232, modelled by `none`. -/
def encodePayload (codes : List CodeEntry) : List Nat → BitWriter → Option BitWriter
  | [], bw => some bw
  | c :: rest, bw =>
    match codeOf codes c with
    | some e => encodePayload codes rest (bw_put_cycle bw e.m e.j)
    | none => none

/-- The body of `compress_cycle_based` after `strlen` has cut the input:
frequency count, `K = 0` early return, `K > 255` guard (C lines 203-207,
`exit(1)`, modelled by `.abort`), sort, cycle assignment, payload
encoding, and assembly of `[K][symbols][payload]` (C lines 237-254). -/
def compressBody (s : List Nat) : CResult :=
  let codes := buildInitialCodes s
  let K := codes.length
  if K = 0 then .ok []
  else if 255 < K then .abort
  else
    let sorted := sortCodes codes
    let table := assignPairs sorted (generate_cycles_for_codes K)
    match encodePayload table s bwInit with
    | some bw => .ok (K :: (table.map (fun e => e.symbol) ++ bw.data))
    | none => .abort

/-- Models `compress_cycle_based` (C lines 177-261).  The input is the
raw byte sequence handed to the C function; `takeWhile (· != 0)` models
the `strlen`-based reading of a NUL-terminated string. -/
def compress_cycle_based (text : List Nat) : CResult :=
  compressBody (text.takeWhile (fun b => b != 0))

/-! ## Decompression (C lines 279-373) -/

/-- The zero-counting phase of the decode loop (C lines 320-333), with an
explicit fuel that the wrapper instantiates with `total - bitIndex` (the
exact number of bits left): count zero bits; on the first one bit, stop
just after it.  Returns `(m, next bit index, whether a one bit was found)`. -/
def scanZerosF (payload : List Nat) (total : Nat) : Nat → Nat → Nat × Nat × Bool
  | 0, bitIndex => (0, bitIndex, false)
  | fuel + 1, bitIndex =>
    if bitIndex < total then
      if getBit payload bitIndex then (0, bitIndex + 1, true)
      else
        let r := scanZerosF payload total fuel (bitIndex + 1)
        (r.1 + 1, r.2.1, r.2.2)
    else (0, bitIndex, false)

/-- The zero-counting phase at bit `bitIndex` of a `total`-bit payload. -/
def scanZeros (payload : List Nat) (total bitIndex : Nat) : Nat × Nat × Bool :=
  scanZerosF payload total (total - bitIndex) bitIndex

/-- The one-counting phase of the decode loop (C lines 341-353): count
consecutive one bits after the first, not consuming the terminating zero
bit.  Returns `(number of extra one bits, next bit index)`. -/
def scanOnesF (payload : List Nat) (total : Nat) : Nat → Nat → Nat × Nat
  | 0, bitIndex => (0, bitIndex)
  | fuel + 1, bitIndex =>
    if bitIndex < total then
      if getBit payload bitIndex then
        let r := scanOnesF payload total fuel (bitIndex + 1)
        (r.1 + 1, r.2)
      else (0, bitIndex)
    else (0, bitIndex)

/-- The one-counting phase at bit `bitIndex` of a `total`-bit payload. -/
def scanOnes (payload : List Nat) (total bitIndex : Nat) : Nat × Nat :=
  scanOnesF payload total (total - bitIndex) bitIndex

/-- The linear search for the entry with cycle pair `(m, j)`
(C lines 356-362). -/
def findPair (codes : List CodeEntry) (m j : Nat) : Option CodeEntry :=
  codes.find? (fun e => e.m == m && e.j == j)

/-- The decoder's code table (C lines 296-305): symbols from the header in
rank order, frequency 0, pairs regenerated by `generate_cycles_for_codes`. -/
def buildCodes (symbols : List Nat) (pairs : List (Nat × Nat)) : List CodeEntry :=
  symbols.zipWith (fun s p => ⟨s, 0, p.1, p.2⟩) pairs

/-- The main decode loop of `decompress_cycle_based` (C lines 314-370):
while fewer than `original_len` symbols are out and bits remain, scan
zeros then ones; a missing one bit means a truncated stream (plain stop);
a pair absent from the table stops decoding with `corrupt` (C line 364-367).
`remaining` counts the symbols still to produce, `acc` holds the output in
reverse. -/
def decodeLoop (payload : List Nat) (codes : List CodeEntry) (total : Nat) :
    Nat → Nat → List Nat → List Nat × DStatus
  | 0, _, acc => (acc.reverse, .ok)
  | remaining + 1, bitIndex, acc =>
    if bitIndex < total then
      match scanZeros payload total bitIndex with
      | (m, i1, true) =>
        let r := scanOnes payload total i1
        match findPair codes m (1 + r.1) with
        | some e => decodeLoop payload codes total remaining r.2 (e.symbol :: acc)
        | none => (acc.reverse, .corrupt)
      | (_, _, false) => (acc.reverse, .ok)
    else (acc.reverse, .ok)

/-- Models `decompress_cycle_based` (C lines 279-373): empty buffer gives
the empty message; an invalid header (`K = 0` or `size < 1 + K`, C lines
288-293) gives the empty message with `corrupt`; otherwise rebuild the
code table from the header and run the decode loop on the payload. -/
def decompress_cycle_based (comp : List Nat) (originalLen : Nat) : List Nat × DStatus :=
  match comp with
  | [] => ([], .ok)
  | K :: rest =>
    if K = 0 ∨ comp.length < 1 + K then ([], .corrupt)
    else
      let symbols := rest.take K
      let codes := buildCodes symbols (generate_cycles_for_codes K)
      let payload := rest.drop K
      decodeLoop payload codes (payload.length * 8) originalLen 0 []

/-- Count of distinct byte values of a message, the `K` of the spec. -/
def distinctCount (text : List Nat) : Nat :=
  text.dedup.length

/-- The bit sequence the encoder emits for the byte string `s` under the
code table `codes`: the concatenation, in message order, of each byte's
cycle code. -/
def msgBits (codes : List CodeEntry) (s : List Nat) : List Bool :=
  concatMap (fun c =>
    match codeOf codes c with
    | some e => cycleBits e.m e.j
    | none => []) s

/-! ## Correctness of the bit writer

`Represents bits bw` says that the writer state `bw` is exactly the state
reached after appending the bit sequence `bits` to a fresh writer: the
byte count is `⌈bits.length / 8⌉`, the cursor sits after the last written
bit, and reading any bit position back gives the written bit (positions
past the end read 0, i.e. the zero padding of the last byte). -/

def Represents (bits : List Bool) (bw : BitWriter) : Prop :=
  bw.data.length = (bits.length + 7) / 8 ∧
  bw.bit_pos = (if bits.length = 0 then 0 else (bits.length - 1) % 8 + 1) ∧
  ∀ i, getBit bw.data i = bits.getD i false

theorem getBit_eq_testBit (payload : List Nat) (i : Nat) :
    getBit payload i = (payload.getD (i / 8) 0).testBit (7 - i % 8) := by
  unfold getBit
  rw [Nat.testBit_to_div_mod, Nat.shiftRight_eq_div_pow, Nat.and_one_is_mod]
  generalize payload.getD (i / 8) 0 / 2 ^ (7 - i % 8) % 2 = x
  by_cases h : x = 1 <;> simp [h]

theorem getBit_nil (i : Nat) : getBit [] i = false := by
  rw [getBit_eq_testBit, getD_nil]
  exact Nat.zero_testBit _

theorem getBit_ge {l : List Nat} {i : Nat} (h : l.length ≤ i / 8) : getBit l i = false := by
  rw [getBit_eq_testBit, List.getD_eq_default _ _ h]
  exact Nat.zero_testBit _

theorem getBit_append_lt {l₁ : List Nat} (l₂ : List Nat) {i : Nat} (h : i / 8 < l₁.length) :
    getBit (l₁ ++ l₂) i = getBit l₁ i := by
  rw [getBit_eq_testBit, getBit_eq_testBit, getD_append_lt _ _ _ _ h]

theorem getBit_append_byte {l : List Nat} (x : Nat) {i : Nat} (h : i / 8 = l.length) :
    getBit (l ++ [x]) i = x.testBit (7 - i % 8) := by
  rw [getBit_eq_testBit, getD_append_ge _ _ _ _ (by omega), h]
  simp

theorem setLastOr_length (mask : Nat) : ∀ data : List Nat, (setLastOr data mask).length = data.length
  | [] => rfl
  | [_] => rfl
  | b :: c :: rest => by
    show (b :: setLastOr (c :: rest) mask).length = _
    simp [setLastOr_length mask (c :: rest)]

theorem setLastOr_getD (mask : Nat) : ∀ (data : List Nat) (i : Nat),
    (setLastOr data mask).getD i 0 =
      if i + 1 = data.length then data.getD i 0 ||| mask else data.getD i 0
  | [], i => by simp [setLastOr, getD_nil]
  | [b], i => by
    cases i with
    | zero => simp [setLastOr]
    | succ k => simp [setLastOr, getD_nil]
  | b :: c :: rest, i => by
    cases i with
    | zero =>
      have : ¬(0 + 1 = (b :: c :: rest).length) := by simp
      simp only [setLastOr, List.getD_cons_zero, if_neg this]
    | succ k =>
      show (setLastOr (c :: rest) mask).getD k 0 = _
      rw [setLastOr_getD mask (c :: rest) k]
      have hiff : k + 1 = (c :: rest).length ↔ k + 1 + 1 = (b :: c :: rest).length := by
        simp
      by_cases h : k + 1 = (c :: rest).length
      · rw [if_pos h, if_pos (hiff.mp h)]
        simp
      · rw [if_neg h, if_neg (fun hc => h (hiff.mpr hc))]
        simp

theorem setLastOr_append_singleton (mask : Nat) : ∀ (l : List Nat) (x : Nat),
    setLastOr (l ++ [x]) mask = l ++ [x ||| mask]
  | [], x => rfl
  | [b], x => rfl
  | b :: c :: rest, x => by
    show b :: setLastOr ((c :: rest) ++ [x]) mask = _
    rw [setLastOr_append_singleton mask (c :: rest) x]
    rfl

theorem testBit_or_two_pow (x k t : Nat) :
    (x ||| 2 ^ k).testBit t = (x.testBit t || decide (k = t)) := by
  rw [Nat.testBit_or, Nat.testBit_two_pow]

theorem getD_append_false (bits : List Bool) (i : Nat) :
    (bits ++ [false]).getD i false = bits.getD i false := by
  rcases Nat.lt_or_ge i bits.length with h | h
  · exact getD_append_lt _ _ _ _ h
  · rw [getD_append_ge _ _ _ _ h, List.getD_eq_default _ _ h]
    rcases Nat.lt_or_ge (i - bits.length) 1 with h2 | h2
    · interval_cases h3 : i - bits.length
      simp
    · rw [List.getD_eq_default]
      simpa using h2

/-- Explicit form of `bw_put_bit` on a fresh writer. -/
theorem bw_put_bit_fresh (b : Bool) :
    bw_put_bit ⟨[], 0⟩ b = ⟨[if b then 2 ^ 7 else 0], 1⟩ := by
  cases b <;> rfl

/-- Explicit form of `bw_put_bit` when the last byte is full. -/
theorem bw_put_bit_full (data : List Nat) (b : Bool) :
    bw_put_bit ⟨data, 8⟩ b = ⟨data ++ [if b then 2 ^ 7 else 0], 1⟩ := by
  unfold bw_put_bit
  cases b <;> simp [setLastOr_append_singleton]

/-- Explicit form of `bw_put_bit` mid-byte. -/
theorem bw_put_bit_mid (data : List Nat) (p : Nat) (b : Bool)
    (h1 : ¬(data.length = 0 ∧ p = 0)) (h8 : p ≠ 8) :
    bw_put_bit ⟨data, p⟩ b =
      ⟨if b then setLastOr data (2 ^ (7 - p)) else data, p + 1⟩ := by
  unfold bw_put_bit
  simp only [if_neg h1, if_neg h8]
  cases b <;> simp

/-- One `bw_put_bit` call extends the represented bit sequence by one bit. -/
theorem put_bit_represents {bits : List Bool} {data : List Nat} {pos : Nat}
    (hlen : data.length = (bits.length + 7) / 8)
    (hpos : pos = if bits.length = 0 then 0 else (bits.length - 1) % 8 + 1)
    (hbit : ∀ i, getBit data i = bits.getD i false) (b : Bool) :
    Represents (bits ++ [b]) (bw_put_bit ⟨data, pos⟩ b) := by
  by_cases h8 : bits.length % 8 = 0
  · -- the cursor is at a byte boundary: a fresh byte is appended
    have hstate : bw_put_bit ⟨data, pos⟩ b = ⟨data ++ [if b then 2 ^ 7 else 0], 1⟩ := by
      by_cases h0 : bits.length = 0
      · have hd : data = [] := List.length_eq_zero.mp (by omega)
        subst hd
        rw [hpos, if_pos h0, bw_put_bit_fresh]
        simp
      · have hp : pos = 8 := by rw [hpos, if_neg h0]; omega
        rw [hp, bw_put_bit_full]
    rw [hstate]
    refine ⟨?_, ?_, ?_⟩
    · show (data ++ [if b then 2 ^ 7 else 0]).length = ((bits ++ [b]).length + 7) / 8
      simp only [List.length_append, List.length_cons, List.length_nil]
      omega
    · show (1 : Nat) = if (bits ++ [b]).length = 0 then 0 else ((bits ++ [b]).length - 1) % 8 + 1
      rw [if_neg (by simp)]
      simp only [List.length_append, List.length_cons, List.length_nil]
      omega
    · intro i
      show getBit (data ++ [if b then 2 ^ 7 else 0]) i = (bits ++ [b]).getD i false
      rcases lt_trichotomy (i / 8) data.length with hc | hc | hc
      · have hi : i < bits.length := by omega
        rw [getBit_append_lt _ hc, hbit i, getD_append_lt bits [b] false i hi]
      · rw [getBit_append_byte _ hc]
        by_cases hin : i = bits.length
        · subst hin
          rw [getD_append_ge bits [b] false _ (le_refl _)]
          simp only [Nat.sub_self, List.getD_cons_zero]
          rw [h8]
          cases b <;> decide
        · have hgt : bits.length < i := by omega
          rw [List.getD_eq_default _ _ (by simp; omega)]
          have hm : i % 8 ≠ 0 := by omega
          cases b
          · exact Nat.zero_testBit _
          · show Nat.testBit (2 ^ 7) (7 - i % 8) = false
            rw [Nat.testBit_two_pow]
            simp only [decide_eq_false_iff_not]
            omega
      · have h1 : (data ++ [if b then 2 ^ 7 else 0]).length ≤ i / 8 := by simp; omega
        rw [getBit_ge h1]
        rw [List.getD_eq_default _ _ (by simp; omega)]
  · -- mid-byte: the current last byte is updated in place
    have hn0 : bits.length ≠ 0 := by omega
    have hp : pos = bits.length % 8 := by rw [hpos, if_neg hn0]; omega
    have hlen2 : data.length = bits.length / 8 + 1 := by omega
    have hstate : bw_put_bit ⟨data, pos⟩ b =
        ⟨if b then setLastOr data (2 ^ (7 - bits.length % 8)) else data, pos + 1⟩ := by
      rw [bw_put_bit_mid data pos b (by omega) (by omega), hp]
    rw [hstate]
    refine ⟨?_, ?_, ?_⟩
    · show (if b then setLastOr data (2 ^ (7 - bits.length % 8)) else data).length =
        ((bits ++ [b]).length + 7) / 8
      cases b <;> simp only [if_pos, if_neg, Bool.false_eq_true, not_false_iff,
        ite_true, ite_false, setLastOr_length, List.length_append, List.length_cons,
        List.length_nil] <;> omega
    · show pos + 1 = if (bits ++ [b]).length = 0 then 0 else ((bits ++ [b]).length - 1) % 8 + 1
      rw [if_neg (by simp)]
      simp only [List.length_append, List.length_cons, List.length_nil]
      omega
    · intro i
      show getBit (if b then setLastOr data (2 ^ (7 - bits.length % 8)) else data) i =
        (bits ++ [b]).getD i false
      by_cases hb : b = true
      · subst hb
        rw [if_pos rfl, getBit_eq_testBit, setLastOr_getD]
        by_cases hc : i / 8 + 1 = data.length
        · rw [if_pos hc, testBit_or_two_pow, ← getBit_eq_testBit, hbit i]
          by_cases hin : i = bits.length
          · subst hin
            rw [decide_eq_true (by rfl), Bool.or_true,
              getD_append_ge bits [true] false _ (le_refl _)]
            simp
          · have hd : decide (7 - bits.length % 8 = 7 - i % 8) = false := by
              simp only [decide_eq_false_iff_not]
              omega
            rw [hd, Bool.or_false]
            rcases Nat.lt_or_ge i bits.length with hlt | hge
            · rw [getD_append_lt bits [true] false i hlt]
            · rw [List.getD_eq_default bits false hge,
                List.getD_eq_default _ _ (by simp; omega)]
        · rw [if_neg hc, ← getBit_eq_testBit, hbit i]
          rcases Nat.lt_or_ge i bits.length with hlt | hge
          · rw [getD_append_lt bits [true] false i hlt]
          · rw [List.getD_eq_default bits false hge,
              List.getD_eq_default _ _ (by simp; omega)]
      · have hbf : b = false := by simpa using hb
        subst hbf
        rw [if_neg (by simp), getD_append_false, hbit i]

/-- Invariant form of `put_bit_represents` on a whole writer state. -/
theorem Represents.put_bit {bits : List Bool} {bw : BitWriter}
    (h : Represents bits bw) (b : Bool) :
    Represents (bits ++ [b]) (bw_put_bit bw b) := by
  obtain ⟨data, pos⟩ := bw
  exact put_bit_represents h.1 h.2.1 h.2.2 b

theorem Represents.init : Represents [] bwInit :=
  ⟨rfl, rfl, fun i => by
    show getBit [] i = [].getD i false
    rw [getBit_nil, getD_nil]⟩

theorem Represents.put_bits {bits : List Bool} {bw : BitWriter}
    (h : Represents bits bw) (l : List Bool) :
    Represents (bits ++ l) (bw_put_bits bw l) := by
  induction l generalizing bits bw with
  | nil => simpa [bw_put_bits] using h
  | cons x t ih =>
    have h2 := ih (h.put_bit x)
    simpa [bw_put_bits, List.append_assoc] using h2

theorem Represents.put_cycle {bits : List Bool} {bw : BitWriter}
    (h : Represents bits bw) (m j : Nat) :
    Represents (bits ++ cycleBits m j) (bw_put_cycle bw m j) := by
  have h2 := (h.put_bits (List.replicate m false)).put_bits (List.replicate j true)
  simpa [bw_put_cycle, cycleBits, List.append_assoc] using h2

/-! ## Properties of the cycle enumeration -/

theorem groupPairs_length (L : Nat) : (groupPairs L).length = L - 1 := by
  simp [groupPairs]

theorem mem_groupPairs {L : Nat} {p : Nat × Nat} :
    p ∈ groupPairs L ↔ ∃ i, i < L - 1 ∧ (L - 1 - i, i + 1) = p := by
  simp [groupPairs]

theorem groupPairs_sum {L : Nat} (hL : 2 ≤ L) {p : Nat × Nat} (hp : p ∈ groupPairs L) :
    p.1 + p.2 = L ∧ 1 ≤ p.1 ∧ 1 ≤ p.2 := by
  rcases mem_groupPairs.mp hp with ⟨i, hi, rfl⟩
  refine ⟨?_, ?_, ?_⟩
  · show L - 1 - i + (i + 1) = L
    omega
  · show 1 ≤ L - 1 - i
    omega
  · show 1 ≤ i + 1
    omega

theorem groupPairs_nodup (L : Nat) : (groupPairs L).Nodup := by
  apply List.Nodup.map ?_ (List.nodup_range (L - 1))
  intro a b hab
  have h2 : a + 1 = b + 1 := congrArg Prod.snd hab
  omega

theorem LvalsFrom_succ (L n : Nat) : LvalsFrom L (n + 1) = L :: LvalsFrom (L + 1) n := by
  unfold LvalsFrom
  rw [List.range_succ_eq_map, List.map_cons, List.map_map]
  simp only [Nat.add_zero]
  congr 1
  apply List.map_congr_left
  intro i _
  show L + (i + 1) = L + 1 + i
  omega

theorem cycleEnum_zero (L : Nat) : cycleEnum L 0 = [] := rfl

theorem cycleEnum_succ (L n : Nat) :
    cycleEnum L (n + 1) = groupPairs L ++ cycleEnum (L + 1) n := by
  unfold cycleEnum
  rw [LvalsFrom_succ, concatMap_cons]

theorem cycleEnum_length : ∀ (n L : Nat), 2 ≤ L → n ≤ (cycleEnum L n).length
  | 0, L, _ => by simp [cycleEnum_zero]
  | n + 1, L, hL => by
    rw [cycleEnum_succ, List.length_append, groupPairs_length]
    have := cycleEnum_length n (L + 1) (by omega)
    omega

theorem mem_cycleEnum : ∀ (n L : Nat) (p : Nat × Nat), 2 ≤ L → p ∈ cycleEnum L n →
    1 ≤ p.1 ∧ 1 ≤ p.2 ∧ L ≤ p.1 + p.2 ∧ p.1 + p.2 < L + n
  | 0, L, p, _, h => by simp [cycleEnum_zero] at h
  | n + 1, L, p, hL, h => by
    rw [cycleEnum_succ, List.mem_append] at h
    rcases h with h | h
    · have := groupPairs_sum hL h
      omega
    · have := mem_cycleEnum n (L + 1) p (by omega) h
      omega

theorem cycleEnum_sum_pairwise : ∀ (n L : Nat), 2 ≤ L →
    (cycleEnum L n).Pairwise (fun p q => p.1 + p.2 ≤ q.1 + q.2)
  | 0, L, _ => by simp [cycleEnum_zero]
  | n + 1, L, hL => by
    rw [cycleEnum_succ, List.pairwise_append]
    refine ⟨?_, cycleEnum_sum_pairwise n (L + 1) (by omega), ?_⟩
    · apply List.pairwise_of_forall_mem_list
      intro p hp q hq
      have h1 := groupPairs_sum hL hp
      have h2 := groupPairs_sum hL hq
      omega
    · intro p hp q hq
      have h1 := groupPairs_sum hL hp
      have h2 := mem_cycleEnum n (L + 1) q (by omega) hq
      omega

theorem cycleEnum_nodup : ∀ (n L : Nat), 2 ≤ L → (cycleEnum L n).Nodup
  | 0, L, _ => by simp [cycleEnum_zero]
  | n + 1, L, hL => by
    rw [cycleEnum_succ, List.nodup_append]
    refine ⟨groupPairs_nodup L, cycleEnum_nodup n (L + 1) (by omega), ?_⟩
    intro p hp hq
    have h1 := groupPairs_sum hL hp
    have h2 := mem_cycleEnum n (L + 1) p (by omega) hq
    omega

theorem generate_cycles_go_eq : ∀ (fuel r L n : Nat), 2 ≤ L → r ≤ fuel → r ≤ n →
    generate_cycles_go fuel r L = (cycleEnum L n).take r
  | 0, r, L, n, _, hf, _ => by
    have hr : r = 0 := by omega
    subst hr
    simp [generate_cycles_go]
  | fuel + 1, r, L, n, hL, hf, hn => by
    by_cases hr : r = 0
    · subst hr
      simp [generate_cycles_go]
    · obtain ⟨n2, rfl⟩ : ∃ n2, n = n2 + 1 := ⟨n - 1, by omega⟩
      simp only [generate_cycles_go, if_neg hr]
      rw [cycleEnum_succ, take_append_sub]
      have hg : (groupPairs L).length = L - 1 := groupPairs_length L
      rw [generate_cycles_go_eq fuel (r - (groupPairs L).length) (L + 1) n2
        (by omega) (by omega) (by omega)]

theorem generate_cycles_eq_take (K : Nat) :
    generate_cycles_for_codes K = (cycleEnum 2 K).take K := by
  cases K with
  | zero => simp [generate_cycles_for_codes, generate_cycles_go]
  | succ k =>
    exact generate_cycles_go_eq (k + 1) (k + 1) 2 (k + 1) (by omega) (le_refl _) (le_refl _)

theorem generate_cycles_length (K : Nat) : (generate_cycles_for_codes K).length = K := by
  rw [generate_cycles_eq_take, List.length_take]
  have := cycleEnum_length K 2 (by omega)
  omega

theorem generate_cycles_mem {K : Nat} {p : Nat × Nat} (hp : p ∈ generate_cycles_for_codes K) :
    1 ≤ p.1 ∧ 1 ≤ p.2 := by
  rw [generate_cycles_eq_take] at hp
  have := mem_cycleEnum K 2 p (by omega) (List.mem_of_mem_take hp)
  exact ⟨this.1, this.2.1⟩

theorem generate_cycles_nodup (K : Nat) : (generate_cycles_for_codes K).Nodup := by
  rw [generate_cycles_eq_take]
  exact (cycleEnum_nodup K 2 (by omega)).sublist (List.take_sublist _ _)

theorem generate_cycles_sum_pairwise (K : Nat) :
    (generate_cycles_for_codes K).Pairwise (fun p q => p.1 + p.2 ≤ q.1 + q.2) := by
  rw [generate_cycles_eq_take]
  exact (cycleEnum_sum_pairwise K 2 (by omega)).sublist (List.take_sublist _ _)

theorem flatMap_eq_concatMap (f : α → List β) (l : List α) :
    l.flatMap f = concatMap f l := by
  induction l with
  | nil => rfl
  | cons a t ih => simp [concatMap_cons, ih]

theorem canonicalPairs_eq (K : Nat) : canonicalPairs K = (cycleEnum 2 K).take K := by
  unfold canonicalPairs
  rw [flatMap_eq_concatMap]
  congr 1
  apply concatMap_congr
  intro L hL
  have h2 : 2 ≤ L := by
    rcases List.mem_map.mp hL with ⟨i, _, rfl⟩
    omega
  unfold groupPairs
  apply List.map_congr_left
  intro i hi
  have hi2 : i < L - 1 := List.mem_range.mp hi
  have hj : L - (L - 1 - i) = i + 1 := by omega
  rw [hj]

theorem generate_cycles_eq_canonical (K : Nat) :
    generate_cycles_for_codes K = canonicalPairs K := by
  rw [generate_cycles_eq_take, canonicalPairs_eq]

/-! ## Properties of the initial code table and the sort -/

theorem mem_buildInitialCodes_iff {s : List Nat} {e : CodeEntry} :
    e ∈ buildInitialCodes s ↔
      ∃ c, c < 256 ∧ 0 < s.count c ∧ e = ⟨c, s.count c, 0, 0⟩ := by
  unfold buildInitialCodes count_character_frequency
  rw [List.mem_filterMap]
  constructor
  · rintro ⟨c, hc, he⟩
    by_cases h : 0 < s.count c
    · rw [if_pos h] at he
      exact ⟨c, List.mem_range.mp hc, h, (Option.some.inj he).symm⟩
    · rw [if_neg h] at he
      exact absurd he (by simp)
  · rintro ⟨c, hc, hcount, rfl⟩
    exact ⟨c, List.mem_range.mpr hc, by rw [if_pos hcount]⟩

theorem map_filterMap_if {α β : Type _} (q : α → Prop) [DecidablePred q]
    (f : α → β) (g : β → α) (hg : ∀ a, g (f a) = a) (l : List α) :
    ((l.filterMap (fun a => if q a then some (f a) else none)).map g) =
      l.filter (fun a => decide (q a)) := by
  induction l with
  | nil => rfl
  | cons a t ih =>
    by_cases h : q a <;> simp [List.filterMap_cons, h, ih, hg]

theorem buildInitialCodes_map_symbol (s : List Nat) :
    (buildInitialCodes s).map (fun e => e.symbol) =
      (List.range 256).filter (fun c => decide (0 < s.count c)) := by
  unfold buildInitialCodes count_character_frequency
  exact map_filterMap_if _ _ _ (fun a => rfl) _

theorem buildInitialCodes_symbols_nodup (s : List Nat) :
    ((buildInitialCodes s).map (fun e => e.symbol)).Nodup := by
  rw [buildInitialCodes_map_symbol]
  exact (List.nodup_range 256).filter _

theorem buildInitialCodes_entry {s : List Nat} {e : CodeEntry}
    (he : e ∈ buildInitialCodes s) :
    e.symbol < 256 ∧ e.freq = s.count e.symbol ∧ 0 < s.count e.symbol := by
  rcases mem_buildInitialCodes_iff.mp he with ⟨c, h1, h2, rfl⟩
  exact ⟨h1, rfl, h2⟩

theorem exists_entry_of_mem {s : List Nat} {c : Nat} (hc : c ∈ s) (hlt : c < 256) :
    ∃ e ∈ buildInitialCodes s, e.symbol = c := by
  refine ⟨⟨c, s.count c, 0, 0⟩, ?_, rfl⟩
  exact mem_buildInitialCodes_iff.mpr ⟨c, hlt, List.count_pos_iff.mpr hc, rfl⟩

theorem entry_symbol_mem {s : List Nat} {e : CodeEntry} (he : e ∈ buildInitialCodes s) :
    e.symbol ∈ s :=
  List.count_pos_iff.mp (buildInitialCodes_entry he).2.2

theorem buildInitialCodes_nil : buildInitialCodes [] = [] := by decide

theorem buildInitialCodes_ne_nil {s : List Nat} (hs : ∀ b ∈ s, b < 256) (hne : s ≠ []) :
    buildInitialCodes s ≠ [] := by
  obtain ⟨c, hc⟩ : ∃ c, c ∈ s := by
    cases s with
    | nil => exact absurd rfl hne
    | cons a t => exact ⟨a, by simp⟩
  obtain ⟨e, he, _⟩ := exists_entry_of_mem hc (hs c hc)
  intro h
  rw [h] at he
  exact absurd he (List.not_mem_nil e)

theorem buildInitialCodes_length_le {s : List Nat} (h0 : 0 ∉ s) :
    (buildInitialCodes s).length ≤ 255 := by
  have hm : (buildInitialCodes s).length =
      ((List.range 256).filter (fun c => decide (0 < s.count c))).length := by
    rw [← buildInitialCodes_map_symbol, List.length_map]
  rw [hm]
  have h1 := length_filter_add_not (fun c => decide (0 < s.count c)) (List.range 256)
  have h2 : 0 <
      ((List.range 256).filter (fun c => !(decide (0 < s.count c)))).length := by
    apply List.length_pos_of_mem (a := 0)
    rw [List.mem_filter]
    refine ⟨by simp, ?_⟩
    have : s.count 0 = 0 := List.count_eq_zero.mpr h0
    simp [this]
  have h3 : (List.range 256).length = 256 := by simp
  omega

theorem sortCodes_perm (l : List CodeEntry) : (sortCodes l).Perm l :=
  List.perm_insertionSort _ l

theorem sortCodes_sorted (l : List CodeEntry) : (sortCodes l).Pairwise entryLE :=
  List.sorted_insertionSort entryLE l

/-! ## The assigned tables -/

theorem assignPairs_length (es : List CodeEntry) (ps : List (Nat × Nat)) :
    (assignPairs es ps).length = min es.length ps.length := by
  simp [assignPairs]

theorem assignPairs_map_pair : ∀ (es : List CodeEntry) (ps : List (Nat × Nat)),
    es.length = ps.length → (assignPairs es ps).map (fun e => (e.m, e.j)) = ps
  | [], [], _ => rfl
  | [], p :: ps, h => by simp at h
  | e :: es, [], h => by simp at h
  | e :: es, p :: ps, h => by
    have ih := assignPairs_map_pair es ps (by simpa using h)
    show ((p.1, p.2) :: (assignPairs es ps).map (fun e => (e.m, e.j))) = p :: ps
    rw [ih]

theorem assignPairs_map_symbol : ∀ (es : List CodeEntry) (ps : List (Nat × Nat)),
    es.length = ps.length →
    (assignPairs es ps).map (fun e => e.symbol) = es.map (fun e => e.symbol)
  | [], [], _ => rfl
  | [], p :: ps, h => by simp at h
  | e :: es, [], h => by simp at h
  | e :: es, p :: ps, h => by
    have ih := assignPairs_map_symbol es ps (by simpa using h)
    show e.symbol :: (assignPairs es ps).map (fun e => e.symbol) =
      e.symbol :: es.map (fun e => e.symbol)
    rw [ih]

theorem assignPairs_map_freq : ∀ (es : List CodeEntry) (ps : List (Nat × Nat)),
    es.length = ps.length →
    (assignPairs es ps).map (fun e => e.freq) = es.map (fun e => e.freq)
  | [], [], _ => rfl
  | [], p :: ps, h => by simp at h
  | e :: es, [], h => by simp at h
  | e :: es, p :: ps, h => by
    have ih := assignPairs_map_freq es ps (by simpa using h)
    show e.freq :: (assignPairs es ps).map (fun e => e.freq) =
      e.freq :: es.map (fun e => e.freq)
    rw [ih]

theorem buildCodes_clearFreq : ∀ (table : List CodeEntry) (ps : List (Nat × Nat)),
    table.map (fun e => (e.m, e.j)) = ps →
    buildCodes (table.map (fun e => e.symbol)) ps =
      table.map (fun e => ⟨e.symbol, 0, e.m, e.j⟩)
  | [], ps, h => by
    simp only [List.map_nil] at h
    subst h
    rfl
  | e :: t, ps, h => by
    cases ps with
    | nil => simp at h
    | cons p pt =>
      rw [List.map_cons] at h
      injection h with h1 h2
      show (⟨e.symbol, 0, p.1, p.2⟩ : CodeEntry) ::
          buildCodes (t.map (fun e => e.symbol)) pt = _
      rw [buildCodes_clearFreq t pt h2, ← h1]
      rfl

/-! ## Lookup lemmas -/

theorem find?_symbol_of_nodup : ∀ {l : List CodeEntry} {e : CodeEntry},
    ((l.map (fun x => x.symbol)).Nodup) → e ∈ l →
    l.find? (fun x => x.symbol == e.symbol) = some e := by
  intro l
  induction l with
  | nil => intro e _ he; simp at he
  | cons a t ih =>
    intro e hnd he
    rw [List.map_cons, List.nodup_cons] at hnd
    rcases List.mem_cons.mp he with rfl | he2
    · exact List.find?_cons_of_pos _ (by simp)
    · have hne : (a.symbol == e.symbol) = false := by
        rw [beq_eq_false_iff_ne]
        intro hcontra
        exact hnd.1 (hcontra ▸ List.mem_map_of_mem _ he2)
      rw [List.find?_cons_of_neg _ (by rw [hne]; exact Bool.false_ne_true)]
      exact ih hnd.2 he2

theorem find?_pair_of_nodup : ∀ {l : List CodeEntry} {e : CodeEntry},
    ((l.map (fun x => (x.m, x.j))).Nodup) → e ∈ l →
    l.find? (fun x => x.m == e.m && x.j == e.j) = some e := by
  intro l
  induction l with
  | nil => intro e _ he; simp at he
  | cons a t ih =>
    intro e hnd he
    rw [List.map_cons, List.nodup_cons] at hnd
    rcases List.mem_cons.mp he with rfl | he2
    · exact List.find?_cons_of_pos _ (by simp)
    · have hne : (a.m == e.m && a.j == e.j) = false := by
        by_contra hcontra
        rw [Bool.not_eq_false, Bool.and_eq_true, beq_iff_eq, beq_iff_eq] at hcontra
        have hpair : (a.m, a.j) = (e.m, e.j) := by rw [hcontra.1, hcontra.2]
        refine hnd.1 ?_
        rw [hpair]
        exact List.mem_map_of_mem _ he2
      rw [List.find?_cons_of_neg _ (by rw [hne]; exact Bool.false_ne_true)]
      exact ih hnd.2 he2

/-! ## Encoder correctness -/

theorem codeOf_eq_of_nodup {table : List CodeEntry} {e : CodeEntry}
    (hnd : (table.map (fun x => x.symbol)).Nodup) (he : e ∈ table) :
    codeOf table e.symbol = some e :=
  find?_symbol_of_nodup hnd he

theorem codeOf_mem {table : List CodeEntry} {c : Nat} {e : CodeEntry}
    (h : codeOf table c = some e) : e ∈ table ∧ e.symbol = c := by
  refine ⟨List.mem_of_find?_eq_some h, ?_⟩
  have h2 := List.find?_some h
  simpa using h2

theorem encodePayload_spec :
    ∀ (s : List Nat) (table : List CodeEntry) (bits : List Bool) (bw : BitWriter),
    (∀ c ∈ s, (codeOf table c).isSome) → Represents bits bw →
    ∃ w, encodePayload table s bw = some w ∧ Represents (bits ++ msgBits table s) w
  | [], table, bits, bw, _, hrep =>
    ⟨bw, rfl, by simpa [msgBits, concatMap_nil] using hrep⟩
  | c :: rest, table, bits, bw, hsome, hrep => by
    have hc := hsome c (by simp)
    obtain ⟨e, he⟩ : ∃ e, codeOf table c = some e := Option.isSome_iff_exists.mp hc
    have hrep2 := hrep.put_cycle e.m e.j
    obtain ⟨w, hw, hwrep⟩ := encodePayload_spec rest table (bits ++ cycleBits e.m e.j)
      (bw_put_cycle bw e.m e.j) (fun c2 hc2 => hsome c2 (by simp [hc2])) hrep2
    refine ⟨w, ?_, ?_⟩
    · show encodePayload table (c :: rest) bw = some w
      simp only [encodePayload, he]
      exact hw
    · have hmsg : msgBits table (c :: rest) = cycleBits e.m e.j ++ msgBits table rest := by
        unfold msgBits
        rw [concatMap_cons, he]
      rw [hmsg, ← List.append_assoc]
      exact hwrep

/-- The encoder's code table: sorted entries with their assigned cycles,
as built by `compress_cycle_based` before the payload loop. -/
def encTable (s : List Nat) : List CodeEntry :=
  assignPairs (sortCodes (buildInitialCodes s))
    (generate_cycles_for_codes (buildInitialCodes s).length)

theorem encTable_length {s : List Nat} :
    (encTable s).length = (buildInitialCodes s).length := by
  unfold encTable
  rw [assignPairs_length, (sortCodes_perm _).length_eq, generate_cycles_length]
  simp

theorem encTable_map_pair (s : List Nat) :
    (encTable s).map (fun e => (e.m, e.j)) =
      generate_cycles_for_codes (buildInitialCodes s).length := by
  unfold encTable
  exact assignPairs_map_pair _ _
    (by rw [(sortCodes_perm _).length_eq, generate_cycles_length])

theorem encTable_map_symbol (s : List Nat) :
    (encTable s).map (fun e => e.symbol) =
      (sortCodes (buildInitialCodes s)).map (fun e => e.symbol) := by
  unfold encTable
  exact assignPairs_map_symbol _ _
    (by rw [(sortCodes_perm _).length_eq, generate_cycles_length])

theorem encTable_symbols_nodup (s : List Nat) :
    ((encTable s).map (fun e => e.symbol)).Nodup := by
  rw [encTable_map_symbol]
  exact (((sortCodes_perm _).map (fun e => e.symbol)).nodup_iff).mpr
    (buildInitialCodes_symbols_nodup s)

theorem encTable_some {s : List Nat} (hs : ∀ b ∈ s, b < 256) :
    ∀ c ∈ s, (codeOf (encTable s) c).isSome := by
  intro c hc
  obtain ⟨e, he, hesym⟩ := exists_entry_of_mem hc (hs c hc)
  have hmem : c ∈ (encTable s).map (fun e => e.symbol) := by
    rw [encTable_map_symbol]
    refine ((sortCodes_perm _).map (fun e => e.symbol)).mem_iff.mpr ?_
    rw [← hesym]
    exact List.mem_map_of_mem _ he
  rcases List.mem_map.mp hmem with ⟨e2, he2, he2sym⟩
  unfold codeOf
  rw [List.find?_isSome]
  exact ⟨e2, he2, by simp [he2sym]⟩

theorem compressBody_eq {s : List Nat} (hs : ∀ b ∈ s, b < 256) (h0 : 0 ∉ s)
    (hne : s ≠ []) :
    ∃ w, encodePayload (encTable s) s bwInit = some w ∧
      Represents (msgBits (encTable s) s) w ∧
      compressBody s = .ok ((buildInitialCodes s).length ::
        ((encTable s).map (fun e => e.symbol) ++ w.data)) := by
  have hKne : buildInitialCodes s ≠ [] := buildInitialCodes_ne_nil hs hne
  have hK0 : (buildInitialCodes s).length ≠ 0 := by
    simpa [List.length_eq_zero] using hKne
  have hK255 : (buildInitialCodes s).length ≤ 255 := buildInitialCodes_length_le h0
  obtain ⟨w, hw, hwrep⟩ :=
    encodePayload_spec s (encTable s) [] bwInit (encTable_some hs) Represents.init
  refine ⟨w, hw, by simpa using hwrep, ?_⟩
  unfold encTable at hw
  simp only [compressBody]
  rw [if_neg hK0, if_neg (by omega), hw]
  rfl

theorem compress_eq_body_of_valid {text : List Nat}
    (hv : ∀ b ∈ text, 0 < b ∧ b < 256) :
    compress_cycle_based text = compressBody text := by
  unfold compress_cycle_based
  rw [takeWhile_all]
  intro b hb
  have := (hv b hb).1
  simp only [bne_iff_ne, ne_eq]
  omega

theorem codeOf_map_clearFreq (table : List CodeEntry) (c : Nat) :
    codeOf (table.map (fun e => ⟨e.symbol, 0, e.m, e.j⟩)) c =
      (codeOf table c).map (fun e => ⟨e.symbol, 0, e.m, e.j⟩) := by
  unfold codeOf
  rw [find?_map_pred]

theorem msgBits_clearFreq (table : List CodeEntry) (s : List Nat) :
    msgBits (table.map (fun e => ⟨e.symbol, 0, e.m, e.j⟩)) s = msgBits table s := by
  unfold msgBits
  apply concatMap_congr
  intro c _
  rw [codeOf_map_clearFreq]
  cases codeOf table c <;> rfl

/-! ## Decoder correctness -/

theorem scanZeros_spec (payload : List Nat) (total : Nat) :
    ∀ (m bitIndex : Nat),
    (∀ t, t < m → getBit payload (bitIndex + t) = false) →
    getBit payload (bitIndex + m) = true →
    bitIndex + m < total →
    scanZeros payload total bitIndex = (m, bitIndex + m + 1, true) := by
  intro m
  induction m with
  | zero =>
    intro bi hz ho hlt
    unfold scanZeros
    obtain ⟨f, hf⟩ : ∃ f, total - bi = f + 1 := ⟨total - bi - 1, by omega⟩
    rw [hf]
    show scanZerosF payload total (f + 1) bi = _
    simp only [scanZerosF]
    rw [if_pos (show bi < total by omega),
      if_pos (show getBit payload bi = true by simpa using ho)]
  | succ k ih =>
    intro bi hz ho hlt
    unfold scanZeros
    obtain ⟨f, hf⟩ : ∃ f, total - bi = f + 1 := ⟨total - bi - 1, by omega⟩
    rw [hf]
    show scanZerosF payload total (f + 1) bi = _
    simp only [scanZerosF]
    rw [if_pos (show bi < total by omega)]
    have h0 : getBit payload bi = false := by
      have := hz 0 (by omega)
      simpa using this
    rw [h0, if_neg Bool.false_ne_true]
    have hrec : scanZerosF payload total f (bi + 1) = (k, bi + 1 + k + 1, true) := by
      have hk := ih (bi + 1)
        (fun t ht => by
          rw [show bi + 1 + t = bi + (t + 1) by omega]
          exact hz (t + 1) (by omega))
        (by rw [show bi + 1 + k = bi + (k + 1) by omega]; exact ho)
        (by omega)
      unfold scanZeros at hk
      rw [show total - (bi + 1) = f by omega] at hk
      exact hk
    simp only [hrec]
    exact congrArg (fun x => (k + 1, x, true)) (by omega)

theorem scanOnes_spec (payload : List Nat) (total : Nat) :
    ∀ (k bitIndex : Nat),
    (∀ t, t < k → getBit payload (bitIndex + t) = true) →
    getBit payload (bitIndex + k) = false →
    bitIndex + k ≤ total →
    scanOnes payload total bitIndex = (k, bitIndex + k) := by
  intro k
  induction k with
  | zero =>
    intro bi ho hstop hle
    unfold scanOnes
    rcases Nat.lt_or_ge bi total with hlt | hge
    · obtain ⟨f, hf⟩ : ∃ f, total - bi = f + 1 := ⟨total - bi - 1, by omega⟩
      rw [hf]
      show scanOnesF payload total (f + 1) bi = _
      simp only [scanOnesF]
      rw [if_pos hlt, show getBit payload bi = false from (by simpa using hstop),
        if_neg Bool.false_ne_true]
      rfl
    · rw [show total - bi = 0 from by omega]
      show scanOnesF payload total 0 bi = _
      simp [scanOnesF]
  | succ k ih =>
    intro bi ho hstop hle
    unfold scanOnes
    obtain ⟨f, hf⟩ : ∃ f, total - bi = f + 1 := ⟨total - bi - 1, by omega⟩
    rw [hf]
    show scanOnesF payload total (f + 1) bi = _
    simp only [scanOnesF]
    rw [if_pos (show bi < total by omega),
      if_pos (show getBit payload bi = true by simpa using ho 0 (by omega))]
    have hrec : scanOnesF payload total f (bi + 1) = (k, bi + 1 + k) := by
      have hk := ih (bi + 1)
        (fun t ht => by
          rw [show bi + 1 + t = bi + (t + 1) by omega]
          exact ho (t + 1) (by omega))
        (by rw [show bi + 1 + k = bi + (k + 1) by omega]; exact hstop)
        (by omega)
      unfold scanOnes at hk
      rw [show total - (bi + 1) = f by omega] at hk
      exact hk
    simp only [hrec]
    exact congrArg (fun x => (k + 1, x)) (by omega)

theorem msgBits_head_false {codes : List CodeEntry}
    (hmj : ∀ e ∈ codes, 1 ≤ e.m ∧ 1 ≤ e.j) :
    ∀ (s : List Nat), (∀ c ∈ s, (codeOf codes c).isSome) →
    (msgBits codes s).getD 0 false = false
  | [], _ => rfl
  | c :: rest, hsome => by
    obtain ⟨e, he⟩ := Option.isSome_iff_exists.mp (hsome c (by simp))
    have hm1 := (hmj e (codeOf_mem he).1).1
    unfold msgBits
    rw [concatMap_cons, he]
    rw [getD_append_lt _ _ _ 0 (by simp [cycleBits]; omega)]
    unfold cycleBits
    rw [getD_append_lt _ _ _ 0 (by simp; omega)]
    exact getD_replicate _ _ _ 0 (by omega)

theorem decodeLoop_spec (payload : List Nat) (codes : List CodeEntry)
    (hmj : ∀ e ∈ codes, 1 ≤ e.m ∧ 1 ≤ e.j)
    (hnd : (codes.map (fun e => (e.m, e.j))).Nodup) :
    ∀ (s : List Nat) (p : Nat) (acc : List Nat),
    (∀ c ∈ s, (codeOf codes c).isSome) →
    (∀ t, getBit payload (p + t) = (msgBits codes s).getD t false) →
    p + (msgBits codes s).length ≤ payload.length * 8 →
    decodeLoop payload codes (payload.length * 8) s.length p acc =
      (acc.reverse ++ s, .ok)
  | [], p, acc, _, _, _ => by
    show decodeLoop payload codes (payload.length * 8) 0 p acc = _
    simp [decodeLoop]
  | c :: rest, p, acc, hsome, hread, hlen => by
    obtain ⟨e, he⟩ : ∃ e, codeOf codes c = some e :=
      Option.isSome_iff_exists.mp (hsome c (by simp))
    obtain ⟨hmem, hsym⟩ := codeOf_mem he
    obtain ⟨hm1, hj1⟩ := hmj e hmem
    have hbits : msgBits codes (c :: rest) = cycleBits e.m e.j ++ msgBits codes rest := by
      unfold msgBits
      rw [concatMap_cons, he]
    have hclen : (cycleBits e.m e.j).length = e.m + e.j := by simp [cycleBits]
    have hblen : (msgBits codes (c :: rest)).length =
        (e.m + e.j) + (msgBits codes rest).length := by
      rw [hbits, List.length_append, hclen]
    have hz : ∀ t, t < e.m → getBit payload (p + t) = false := by
      intro t ht
      rw [hread t, hbits, getD_append_lt _ _ _ t (by omega)]
      unfold cycleBits
      rw [getD_append_lt _ _ _ t (by simp; omega)]
      exact getD_replicate _ _ _ t ht
    have ho : getBit payload (p + e.m) = true := by
      rw [hread e.m, hbits, getD_append_lt _ _ _ e.m (by omega)]
      unfold cycleBits
      rw [getD_append_ge _ _ _ e.m (by simp)]
      simp only [List.length_replicate, Nat.sub_self]
      exact getD_replicate _ _ _ 0 (by omega)
    have hones : ∀ t, t < e.j - 1 → getBit payload (p + e.m + 1 + t) = true := by
      intro t ht
      rw [show p + e.m + 1 + t = p + (e.m + (1 + t)) by omega]
      rw [hread, hbits, getD_append_lt _ _ _ _ (by omega)]
      unfold cycleBits
      rw [getD_append_ge _ _ _ _ (by simp)]
      simp only [List.length_replicate]
      rw [show e.m + (1 + t) - e.m = 1 + t by omega]
      exact getD_replicate _ _ _ (1 + t) (by omega)
    have hstop : getBit payload (p + e.m + 1 + (e.j - 1)) = false := by
      rw [show p + e.m + 1 + (e.j - 1) = p + (e.m + e.j) by omega]
      rw [hread, hbits, getD_append_ge _ _ _ _ (by omega)]
      rw [show e.m + e.j - (cycleBits e.m e.j).length = 0 by omega]
      exact msgBits_head_false hmj rest (fun c2 hc2 => hsome c2 (by simp [hc2]))
    have hscan1 : scanZeros payload (payload.length * 8) p = (e.m, p + e.m + 1, true) :=
      scanZeros_spec payload _ e.m p hz ho (by omega)
    have hscan2 : scanOnes payload (payload.length * 8) (p + e.m + 1) =
        (e.j - 1, p + e.m + 1 + (e.j - 1)) :=
      scanOnes_spec payload _ (e.j - 1) (p + e.m + 1) hones hstop (by omega)
    have hfind : findPair codes e.m (1 + (e.j - 1)) = some e := by
      rw [show 1 + (e.j - 1) = e.j by omega]
      exact find?_pair_of_nodup hnd hmem
    have hrec := decodeLoop_spec payload codes hmj hnd rest (p + (e.m + e.j))
      (e.symbol :: acc)
      (fun c2 hc2 => hsome c2 (by simp [hc2]))
      (fun t => by
        rw [show p + (e.m + e.j) + t = p + ((e.m + e.j) + t) by omega]
        rw [hread, hbits, getD_append_ge _ _ _ _ (by omega)]
        rw [show e.m + e.j + t - (cycleBits e.m e.j).length = t by omega])
      (by omega)
    show decodeLoop payload codes (payload.length * 8) (rest.length + 1) p acc = _
    simp only [decodeLoop]
    rw [if_pos (show p < payload.length * 8 by omega)]
    simp only [hscan1, hscan2, hfind]
    rw [show p + e.m + 1 + (e.j - 1) = p + (e.m + e.j) by omega]
    rw [hrec, hsym]
    simp

/-! ## Round trip -/

theorem compress_nil : compress_cycle_based [] = .ok [] := by decide

theorem decompress_nil (n : Nat) : decompress_cycle_based [] n = ([], .ok) := rfl

theorem roundTrip_valid {text : List Nat} (hv : ∀ b ∈ text, 0 < b ∧ b < 256) :
    ∃ buf, compress_cycle_based text = .ok buf ∧
      decompress_cycle_based buf text.length = (text, .ok) := by
  by_cases hne : text = []
  · subst hne
    exact ⟨[], compress_nil, rfl⟩
  · have hs : ∀ b ∈ text, b < 256 := fun b hb => (hv b hb).2
    have h0 : 0 ∉ text := fun hmem => by have := (hv 0 hmem).1; omega
    obtain ⟨w, hw, hwrep, hbody⟩ := compressBody_eq hs h0 hne
    have hcomp : compress_cycle_based text = .ok ((buildInitialCodes text).length ::
        ((encTable text).map (fun e => e.symbol) ++ w.data)) := by
      rw [compress_eq_body_of_valid hv, hbody]
    refine ⟨_, hcomp, ?_⟩
    have hK0 : (buildInitialCodes text).length ≠ 0 := by
      simpa [List.length_eq_zero] using buildInitialCodes_ne_nil hs hne
    have hsymlen : ((encTable text).map (fun e => e.symbol)).length =
        (buildInitialCodes text).length := by
      rw [List.length_map, encTable_length]
    show decompress_cycle_based ((buildInitialCodes text).length ::
      ((encTable text).map (fun e => e.symbol) ++ w.data)) text.length = (text, .ok)
    simp only [decompress_cycle_based]
    rw [if_neg (by
      rw [not_or]
      refine ⟨hK0, ?_⟩
      simp only [List.length_cons, List.length_append, hsymlen, not_lt]
      omega)]
    rw [take_append_len _ _ hsymlen, drop_append_len _ _ hsymlen]
    rw [buildCodes_clearFreq _ _ (encTable_map_pair text)]
    have hmj2 : ∀ e ∈ (encTable text).map (fun e => (⟨e.symbol, 0, e.m, e.j⟩ : CodeEntry)),
        1 ≤ e.m ∧ 1 ≤ e.j := by
      intro e he
      rcases List.mem_map.mp he with ⟨e0, he0, rfl⟩
      have hp : (e0.m, e0.j) ∈ generate_cycles_for_codes (buildInitialCodes text).length := by
        rw [← encTable_map_pair]
        exact List.mem_map_of_mem _ he0
      exact generate_cycles_mem hp
    have hnd2 : (((encTable text).map (fun e => (⟨e.symbol, 0, e.m, e.j⟩ : CodeEntry))).map
        (fun e => (e.m, e.j))).Nodup := by
      rw [List.map_map]
      show ((encTable text).map (fun e => (e.m, e.j))).Nodup
      rw [encTable_map_pair]
      exact generate_cycles_nodup _
    have hsome2 : ∀ c ∈ text,
        (codeOf ((encTable text).map (fun e => (⟨e.symbol, 0, e.m, e.j⟩ : CodeEntry))) c).isSome := by
      intro c hc
      obtain ⟨e, he⟩ := Option.isSome_iff_exists.mp (encTable_some hs c hc)
      rw [codeOf_map_clearFreq, he]
      rfl
    have hread2 : ∀ t, getBit w.data (0 + t) =
        (msgBits ((encTable text).map (fun e => (⟨e.symbol, 0, e.m, e.j⟩ : CodeEntry))) text).getD t false := by
      intro t
      rw [Nat.zero_add, msgBits_clearFreq]
      exact hwrep.2.2 t
    have hlen2 : 0 + (msgBits ((encTable text).map
        (fun e => (⟨e.symbol, 0, e.m, e.j⟩ : CodeEntry))) text).length ≤ w.data.length * 8 := by
      rw [Nat.zero_add, msgBits_clearFreq]
      have h1 := hwrep.1
      omega
    have hdec := decodeLoop_spec w.data
      ((encTable text).map (fun e => (⟨e.symbol, 0, e.m, e.j⟩ : CodeEntry)))
      hmj2 hnd2 text 0 [] hsome2 hread2 hlen2
    simpa using hdec

/-! ## The decoder table over an explicit rank order -/

theorem buildCodes_map_symbol : ∀ (syms : List Nat) (ps : List (Nat × Nat)),
    syms.length = ps.length →
    (buildCodes syms ps).map (fun e => e.symbol) = syms
  | [], [], _ => rfl
  | [], p :: ps, h => by simp at h
  | s :: st, [], h => by simp at h
  | s :: st, p :: ps, h => by
    have ih := buildCodes_map_symbol st ps (by simpa using h)
    show s :: (buildCodes st ps).map (fun e => e.symbol) = s :: st
    rw [ih]

theorem buildCodes_map_pair : ∀ (syms : List Nat) (ps : List (Nat × Nat)),
    syms.length = ps.length →
    (buildCodes syms ps).map (fun e => (e.m, e.j)) = ps
  | [], [], _ => rfl
  | [], p :: ps, h => by simp at h
  | s :: st, [], h => by simp at h
  | s :: st, p :: ps, h => by
    have ih := buildCodes_map_pair st ps (by simpa using h)
    show (p.1, p.2) :: (buildCodes st ps).map (fun e => (e.m, e.j)) = p :: ps
    rw [ih]

theorem buildCodes_mem : ∀ (syms : List Nat) (ps : List (Nat × Nat)) (r : Nat),
    syms.length = ps.length → r < syms.length →
    (⟨syms.getD r 0, 0, (ps.getD r (0, 0)).1, (ps.getD r (0, 0)).2⟩ : CodeEntry) ∈
      buildCodes syms ps
  | [], _, r, _, hr => by simp at hr
  | s :: st, [], r, h, _ => by simp at h
  | s :: st, p :: ps, 0, _, _ => by
    show (⟨s, 0, p.1, p.2⟩ : CodeEntry) ∈ ⟨s, 0, p.1, p.2⟩ :: buildCodes st ps
    exact List.mem_cons_self _ _
  | s :: st, p :: ps, r + 1, h, hr => by
    show (⟨st.getD r 0, 0, (ps.getD r (0, 0)).1, (ps.getD r (0, 0)).2⟩ : CodeEntry) ∈
      ⟨s, 0, p.1, p.2⟩ :: buildCodes st ps
    exact List.mem_cons_of_mem _
      (buildCodes_mem st ps r (by simpa using h) (by simpa using hr))

theorem range_getD {n i : Nat} (h : i < n) : (List.range n).getD i 0 = i := by
  rw [List.getD_eq_getElem _ _ (by simpa using h)]
  apply List.getElem_range

theorem codeOf_buildCodes_range {K r : Nat} (hr : r < K) :
    codeOf (buildCodes (List.range K) (generate_cycles_for_codes K)) r =
      some ⟨r, 0, ((generate_cycles_for_codes K).getD r (0, 0)).1,
        ((generate_cycles_for_codes K).getD r (0, 0)).2⟩ := by
  have hlen : (List.range K).length = (generate_cycles_for_codes K).length := by
    rw [List.length_range, generate_cycles_length]
  have hmem := buildCodes_mem (List.range K) (generate_cycles_for_codes K) r hlen
    (by simpa using hr)
  rw [range_getD hr] at hmem
  have hnd : ((buildCodes (List.range K)
      (generate_cycles_for_codes K)).map (fun e => e.symbol)).Nodup := by
    rw [buildCodes_map_symbol _ _ hlen]
    exact List.nodup_range K
  exact find?_symbol_of_nodup hnd hmem

/-- Writing the cycles of a sequence of ranks with `bw_put_cycle` appends
exactly the concatenation of those cycles' bit sequences. -/
theorem put_cycles_represents (pairs : List (Nat × Nat)) :
    ∀ (ranks : List Nat) (bits : List Bool) (bw : BitWriter), Represents bits bw →
    Represents (bits ++ concatMap (fun r =>
        cycleBits (pairs.getD r (0, 0)).1 (pairs.getD r (0, 0)).2) ranks)
      (ranks.foldl (fun b r =>
        bw_put_cycle b (pairs.getD r (0, 0)).1 (pairs.getD r (0, 0)).2) bw)
  | [], bits, bw, h => by simpa [concatMap_nil] using h
  | r :: rt, bits, bw, h => by
    have h2 := put_cycles_represents pairs rt
      (bits ++ cycleBits (pairs.getD r (0, 0)).1 (pairs.getD r (0, 0)).2)
      (bw_put_cycle bw (pairs.getD r (0, 0)).1 (pairs.getD r (0, 0)).2)
      (h.put_cycle _ _)
    show Represents _ (rt.foldl _ (bw_put_cycle bw _ _))
    rw [concatMap_cons, ← List.append_assoc]
    exact h2

/-- Decoding a buffer whose header lists the ranks `0..K-1` as symbols and
whose payload is the packed concatenation of the cycle codes of an
arbitrary rank sequence recovers exactly that rank sequence. -/
theorem decompress_ranks (K : Nat) (ranks : List Nat) (hK1 : 1 ≤ K)
    (hr : ∀ r ∈ ranks, r < K) :
    decompress_cycle_based
      (K :: (List.range K ++ (ranks.foldl (fun bw r =>
        bw_put_cycle bw ((generate_cycles_for_codes K).getD r (0, 0)).1
          ((generate_cycles_for_codes K).getD r (0, 0)).2) bwInit).data))
      ranks.length = (ranks, .ok) := by
  have hw := put_cycles_represents (generate_cycles_for_codes K) ranks [] bwInit
    Represents.init
  rw [List.nil_append] at hw
  have hlenKr : (List.range K).length = (generate_cycles_for_codes K).length := by
    rw [List.length_range, generate_cycles_length]
  have hmsg : msgBits (buildCodes (List.range K) (generate_cycles_for_codes K)) ranks =
      concatMap (fun r =>
        cycleBits ((generate_cycles_for_codes K).getD r (0, 0)).1
          ((generate_cycles_for_codes K).getD r (0, 0)).2) ranks := by
    unfold msgBits
    apply concatMap_congr
    intro r hrr
    rw [codeOf_buildCodes_range (hr r hrr)]
  simp only [decompress_cycle_based]
  rw [if_neg (by
    rw [not_or]
    refine ⟨by omega, ?_⟩
    simp only [List.length_cons, List.length_append, List.length_range, not_lt]
    omega)]
  rw [take_append_len _ _ (List.length_range K), drop_append_len _ _ (List.length_range K)]
  have hmj2 : ∀ e ∈ buildCodes (List.range K) (generate_cycles_for_codes K),
      1 ≤ e.m ∧ 1 ≤ e.j := by
    intro e he
    apply generate_cycles_mem (p := (e.m, e.j))
    rw [← buildCodes_map_pair (List.range K) (generate_cycles_for_codes K) hlenKr]
    exact List.mem_map_of_mem _ he
  have hnd2 : ((buildCodes (List.range K)
      (generate_cycles_for_codes K)).map (fun e => (e.m, e.j))).Nodup := by
    rw [buildCodes_map_pair _ _ hlenKr]
    exact generate_cycles_nodup K
  have hsome2 : ∀ r ∈ ranks,
      (codeOf (buildCodes (List.range K) (generate_cycles_for_codes K)) r).isSome := by
    intro r hrr
    rw [codeOf_buildCodes_range (hr r hrr)]
    rfl
  have hread2 : ∀ t, getBit (ranks.foldl (fun bw r =>
      bw_put_cycle bw ((generate_cycles_for_codes K).getD r (0, 0)).1
        ((generate_cycles_for_codes K).getD r (0, 0)).2) bwInit).data (0 + t) =
      (msgBits (buildCodes (List.range K) (generate_cycles_for_codes K)) ranks).getD t false := by
    intro t
    rw [Nat.zero_add, hmsg]
    exact hw.2.2 t
  have hlen2 : 0 + (msgBits (buildCodes (List.range K)
      (generate_cycles_for_codes K)) ranks).length ≤
      (ranks.foldl (fun bw r =>
        bw_put_cycle bw ((generate_cycles_for_codes K).getD r (0, 0)).1
          ((generate_cycles_for_codes K).getD r (0, 0)).2) bwInit).data.length * 8 := by
    rw [Nat.zero_add, hmsg]
    have h1 := hw.1
    omega
  have hdec := decodeLoop_spec _ _ hmj2 hnd2 ranks 0 [] hsome2 hread2 hlen2
  simpa using hdec

/-! ## The encoder never fails -/

theorem compressBody_nil : compressBody [] = .ok [] := by decide

theorem compress_ok_of_bytes {text : List Nat} (hs : ∀ b ∈ text, b < 256) :
    ∃ buf, compress_cycle_based text = .ok buf := by
  unfold compress_cycle_based
  have hsub : ∀ b ∈ text.takeWhile (fun b => b != 0), b < 256 :=
    fun b hb => hs b (mem_takeWhile_mem hb)
  have h0 : (0 : Nat) ∉ text.takeWhile (fun b => b != 0) := by
    intro hmem
    have := List.mem_takeWhile_imp hmem
    simp at this
  by_cases hne : text.takeWhile (fun b => b != 0) = []
  · rw [hne]
    exact ⟨[], compressBody_nil⟩
  · obtain ⟨w, _, _, hbody⟩ := compressBody_eq hsub h0 hne
    exact ⟨_, hbody⟩

theorem zero_mem_of_many_distinct {text : List Nat} (hs : ∀ b ∈ text, b < 256)
    (hd : 255 < text.dedup.length) : 0 ∈ text := by
  by_contra h0
  have h1 : text.dedup.length = text.toFinset.card := (List.card_toFinset text).symm
  have h2 : text.toFinset ⊆ Finset.range 256 \ {0} := by
    intro b hb
    rw [Finset.mem_sdiff, Finset.mem_range, Finset.mem_singleton]
    have hbmem : b ∈ text := List.mem_toFinset.mp hb
    exact ⟨hs b hbmem, fun hb0 => h0 (hb0 ▸ hbmem)⟩
  have h3 := Finset.card_le_card h2
  have h4 : (Finset.range 256 \ {0}).card = 255 := by
    rw [Finset.card_sdiff (by simp)]
    simp
  omega

/-! ## Decoder output bound -/

theorem decodeLoop_length_le (payload : List Nat) (codes : List CodeEntry)
    (total : Nat) : ∀ (rem bitIndex : Nat) (acc : List Nat),
    (decodeLoop payload codes total rem bitIndex acc).1.length ≤ acc.length + rem
  | 0, _, acc => by simp [decodeLoop]
  | rem + 1, bitIndex, acc => by
    simp only [decodeLoop]
    by_cases hb : bitIndex < total
    · rw [if_pos hb]
      rcases hsz : scanZeros payload total bitIndex with ⟨m, i1, found⟩
      cases found
      · simp
      · rcases hfp : findPair codes m (1 + (scanOnes payload total i1).1) with _ | e
        · simp [hfp]
        · simp only [hfp]
          have := decodeLoop_length_le payload codes total rem
            (scanOnes payload total i1).2 (e.symbol :: acc)
          simp only [List.length_cons] at this
          omega
    · rw [if_neg hb]
      simp

theorem decompress_length_le (comp : List Nat) (len : Nat) :
    (decompress_cycle_based comp len).1.length ≤ len := by
  cases comp with
  | nil => simp [decompress_cycle_based]
  | cons K rest =>
    simp only [decompress_cycle_based]
    by_cases hc : K = 0 ∨ (K :: rest).length < 1 + K
    · rw [if_pos hc]
      simp
    · rw [if_neg hc]
      have := decodeLoop_length_le (rest.drop K)
        (buildCodes (rest.take K) (generate_cycles_for_codes K))
        ((rest.drop K).length * 8) len 0 []
      simpa using this

/-! ## Header characterization -/

theorem buildInitialCodes_length_eq_distinct {s : List Nat} (hs : ∀ b ∈ s, b < 256) :
    (buildInitialCodes s).length = distinctCount s := by
  unfold distinctCount
  rw [show (buildInitialCodes s).length =
    ((buildInitialCodes s).map (fun e => e.symbol)).length from (List.length_map _ _).symm]
  have hnd := buildInitialCodes_symbols_nodup s
  have hperm : ((buildInitialCodes s).map (fun e => e.symbol)).Perm s.dedup := by
    rw [List.perm_ext_iff_of_nodup hnd (List.nodup_dedup s)]
    intro a
    rw [List.mem_dedup]
    constructor
    · intro h
      rcases List.mem_map.mp h with ⟨e, he, rfl⟩
      exact entry_symbol_mem he
    · intro h
      obtain ⟨e, he, hesym⟩ := exists_entry_of_mem h (hs a h)
      rw [← hesym]
      exact List.mem_map_of_mem _ he
  exact hperm.length_eq

theorem encTable_syms_mem {s : List Nat} (hs : ∀ b ∈ s, b < 256) :
    ∀ c, c ∈ (encTable s).map (fun e => e.symbol) ↔ c ∈ s := by
  intro c
  rw [encTable_map_symbol]
  constructor
  · intro h
    rcases List.mem_map.mp h with ⟨e, he, rfl⟩
    exact entry_symbol_mem ((sortCodes_perm _).mem_iff.mp he)
  · intro h
    obtain ⟨e, he, hesym⟩ := exists_entry_of_mem h (hs c h)
    rw [← hesym]
    exact List.mem_map_of_mem _ ((sortCodes_perm _).mem_iff.mpr he)

theorem encTable_syms_sorted (s : List Nat) :
    ((encTable s).map (fun e => e.symbol)).Pairwise
      (fun a b => s.count b < s.count a ∨ (s.count a = s.count b ∧ a < b)) := by
  rw [encTable_map_symbol, List.pairwise_map]
  have hsorted := sortCodes_sorted (buildInitialCodes s)
  have hnodup : ((sortCodes (buildInitialCodes s)).map (fun e => e.symbol)).Nodup :=
    (((sortCodes_perm _).map (fun e => e.symbol)).nodup_iff).mpr
      (buildInitialCodes_symbols_nodup s)
  have hne : (sortCodes (buildInitialCodes s)).Pairwise
      (fun a b => a.symbol ≠ b.symbol) := List.pairwise_map.mp hnodup
  have hcomb := hsorted.and hne
  refine hcomb.imp_of_mem ?_
  intro a b ha hb hab
  have hfa : a.freq = s.count a.symbol :=
    (buildInitialCodes_entry ((sortCodes_perm _).mem_iff.mp ha)).2.1
  have hfb : b.freq = s.count b.symbol :=
    (buildInitialCodes_entry ((sortCodes_perm _).mem_iff.mp hb)).2.1
  have h1 : b.freq < a.freq ∨ (a.freq = b.freq ∧ a.symbol ≤ b.symbol) := hab.1
  have h2 : a.symbol ≠ b.symbol := hab.2
  rcases h1 with h | h
  · left
    rw [← hfa, ← hfb]
    exact h
  · right
    refine ⟨by rw [← hfa, ← hfb]; exact h.1, ?_⟩
    have := h.2
    omega

/-! ## The corrupt branches of the decoder -/

theorem decompress_header_invalid {comp : List Nat} (len : Nat) (hne : comp ≠ [])
    (hbad : comp.headD 0 = 0 ∨ comp.length < 1 + comp.headD 0) :
    decompress_cycle_based comp len = ([], .corrupt) := by
  cases comp with
  | nil => exact absurd rfl hne
  | cons K rest =>
    simp only [decompress_cycle_based]
    rw [if_pos (by simpa using hbad)]

theorem decodeLoop_corrupt (payload : List Nat) (codes : List CodeEntry) (total : Nat)
    (rem bi : Nat) (acc : List Nat) (m i1 extra i2 : Nat)
    (hbi : bi < total)
    (hsz : scanZeros payload total bi = (m, i1, true))
    (hso : scanOnes payload total i1 = (extra, i2))
    (hfp : findPair codes m (1 + extra) = none) :
    decodeLoop payload codes total (rem + 1) bi acc = (acc.reverse, .corrupt) := by
  simp only [decodeLoop]
  rw [if_pos hbi]
  simp only [hsz, hso, hfp]

/-! # The claims -/

/-- C1, counterexample to the claim as stated: the message `[0]` has one
distinct byte value (at most 255), yet the round trip does not return it:
the `strlen`-based encoder reads an empty string, compression yields the
empty buffer, and decompressing that with original length 1 returns the
empty message, not `[0]`. -/
theorem C1_counterexample :
    distinctCount [0] ≤ 255 ∧
    compress_cycle_based [0] = .ok [] ∧
    decompress_cycle_based [] 1 = ([], .ok) ∧
    ([] : List Nat) ≠ [0] := by
  refine ⟨by decide, by decide, rfl, by decide⟩

/-- C1, amended: for every message containing no byte 0 (all bytes
`1..255` — byte 0 is the NUL terminator, which the `strlen`-based
interface treats as end of input, and every NUL-free message has at most
255 distinct byte values), decompressing the result of compressing the
message, given its original symbol count, yields exactly the original
message with an `ok` status. -/
theorem C1_round_trip (text : List Nat) (hv : ∀ b ∈ text, 0 < b ∧ b < 256) :
    ∃ buf, compress_cycle_based text = .ok buf ∧
      decompress_cycle_based buf text.length = (text, .ok) :=
  roundTrip_valid hv

/-- Witness for C1 at the concrete message "hih". -/
theorem C1_round_trip_witness :
    ∃ buf, compress_cycle_based [104, 105, 104] = .ok buf ∧
      decompress_cycle_based buf 3 = ([104, 105, 104], .ok) :=
  C1_round_trip [104, 105, 104] (by decide)

set_option maxRecDepth 20000 in
/-- C2, counterexample: a message containing more than 255 distinct byte
values (here all 256 byte values) does not make compression fail at all —
the NUL byte it necessarily contains terminates the C string, so the
encoder succeeds, returning the compression of the prefix before the NUL
(here the empty buffer).  No recoverable `TooManySymbols` error exists in
the code: the `K > 255` guard calls `exit(1)`. -/
theorem C2_counterexample :
    255 < (List.range 256).dedup.length ∧
      compress_cycle_based (List.range 256) = .ok [] := by
  constructor
  · decide
  · decide

/-- C2, amended: a message with more than 255 distinct byte values
necessarily contains byte 0, which the NUL-terminated interface treats as
the end of the string, so the encoder compresses the prefix before it and
returns successfully; it never fails with (or returns) a `TooManySymbols`
error, and the `K > 255` branch — which would abort the process, not
return an error — is unreachable. -/
theorem C2_amended (text : List Nat) (hv : ∀ b ∈ text, b < 256)
    (hd : 255 < distinctCount text) :
    0 ∈ text ∧ ∃ buf, compress_cycle_based text = .ok buf :=
  ⟨zero_mem_of_many_distinct hv hd, compress_ok_of_bytes hv⟩

set_option maxRecDepth 20000 in
/-- Witness for the amended C2 at the message listing all 256 byte values. -/
theorem C2_amended_witness :
    0 ∈ List.range 256 ∧ ∃ buf, compress_cycle_based (List.range 256) = .ok buf :=
  C2_amended (List.range 256) (by decide) (by decide)

/-- C3: the decoder handles corruption without failing.  (a) A non-empty
buffer whose header is invalid (first byte `K = 0`, or size `< 1 + K`)
decodes to the empty message with `corrupt`.  (b) The output never
exceeds `originalLen` symbols (the decoder is total and respects the
caller's buffer).  (c) At any decode-loop state where the two-phase scan
yields a pair `(m, j)` with no matching table entry, decoding stops
immediately, returning exactly the output produced so far, with
`corrupt`. -/
theorem C3_corrupt_handling (comp : List Nat) (len : Nat) :
    ((comp ≠ [] ∧ (comp.headD 0 = 0 ∨ comp.length < 1 + comp.headD 0)) →
      decompress_cycle_based comp len = ([], .corrupt)) ∧
    (decompress_cycle_based comp len).1.length ≤ len ∧
    (∀ (payload : List Nat) (codes : List CodeEntry) (total rem bi : Nat)
      (acc : List Nat) (m i1 extra i2 : Nat),
      bi < total →
      scanZeros payload total bi = (m, i1, true) →
      scanOnes payload total i1 = (extra, i2) →
      findPair codes m (1 + extra) = none →
      decodeLoop payload codes total (rem + 1) bi acc = (acc.reverse, .corrupt)) :=
  ⟨fun h => decompress_header_invalid len h.1 h.2,
   decompress_length_le comp len,
   fun payload codes total rem bi acc m i1 extra i2 h1 h2 h3 h4 =>
     decodeLoop_corrupt payload codes total rem bi acc m i1 extra i2 h1 h2 h3 h4⟩

/-- Witness for C3: the buffer `[0x00]` (K = 0) decodes to the empty
message with `corrupt`, and a decode-loop state scanning `00110000`
against a table containing only the pair `(1, 1)` stops with the output
produced so far (one symbol already accumulated) and `corrupt`. -/
theorem C3_corrupt_handling_witness :
    decompress_cycle_based [0] 5 = ([], .corrupt) ∧
    decodeLoop [48] [⟨97, 0, 1, 1⟩] 8 1 0 [97] = ([97], .corrupt) := by
  constructor
  · exact (C3_corrupt_handling [0] 5).1 ⟨by decide, by decide⟩
  · exact (C3_corrupt_handling [0] 5).2.2 [48] [⟨97, 0, 1, 1⟩] 8 0 0 [97] 2 3 1 4
      (by decide) (by decide) (by decide) (by decide)

/-- C4: for every `K` with `1 ≤ K ≤ 255`, the code-table builder assigns
to ranks `0..K-1` exactly the first `K` pairs of the canonical
enumeration (lengths `L = 2, 3, ...`, within a length `m` from `L-1` down
to `1`, `j = L - m`); there are exactly `K` of them, each has `m ≥ 1` and
`j ≥ 1`, and they are pairwise distinct. -/
theorem C4_canonical_assignment (K : Nat) (h1 : 1 ≤ K) (h2 : K ≤ 255) :
    generate_cycles_for_codes K = canonicalPairs K ∧
    (generate_cycles_for_codes K).length = K ∧
    (∀ p ∈ generate_cycles_for_codes K, 1 ≤ p.1 ∧ 1 ≤ p.2) ∧
    (generate_cycles_for_codes K).Nodup :=
  ⟨generate_cycles_eq_canonical K, generate_cycles_length K,
   fun _ hp => generate_cycles_mem hp, generate_cycles_nodup K⟩

/-- Witness for C4 at K = 5. -/
theorem C4_canonical_assignment_witness :
    generate_cycles_for_codes 5 = canonicalPairs 5 ∧
    (generate_cycles_for_codes 5).length = 5 ∧
    (∀ p ∈ generate_cycles_for_codes 5, 1 ≤ p.1 ∧ 1 ≤ p.2) ∧
    (generate_cycles_for_codes 5).Nodup :=
  C4_canonical_assignment 5 (by decide) (by decide)

/-- C5: compressing "aab" produces exactly `[0x02, 0x61, 0x62, 0x52]`
(K = 2, symbols 'a' then 'b', payload byte `01010010`), and decompressing
that buffer with original length 3 returns "aab". -/
theorem C5_concrete_example :
    compress_cycle_based [97, 97, 98] = .ok [2, 97, 98, 82] ∧
    decompress_cycle_based [2, 97, 98, 82] 3 = ([97, 97, 98], .ok) := by
  constructor
  · decide
  · decide

/-- C6, counterexample to the claim as stated: the non-empty message
`[97, 0, 98]` has three distinct byte values, but the compressed buffer
starts with the byte 1, not 3: the `strlen`-based encoder only sees the
prefix `[97]` before the NUL, so the header describes that prefix. -/
theorem C6_counterexample :
    compress_cycle_based [97, 0, 98] = .ok [1, 97, 64] ∧
    distinctCount [97, 0, 98] = 3 := by
  constructor
  · decide
  · decide

/-- C6, amended: for every non-empty message containing no byte 0 (bytes
`1..255`), the compressed buffer is `K` followed by exactly `K` symbol
bytes followed by the payload, where `K` is the count of distinct byte
values and the symbol bytes are exactly the distinct byte values of the
message, without repetition, ordered by descending occurrence count with
ties broken by ascending symbol value. -/
theorem C6_header_shape (text : List Nat) (hne : text ≠ [])
    (hv : ∀ b ∈ text, 0 < b ∧ b < 256) :
    ∃ syms payload,
      compress_cycle_based text = .ok (distinctCount text :: (syms ++ payload)) ∧
      syms.length = distinctCount text ∧
      syms.Nodup ∧
      (∀ c, c ∈ syms ↔ c ∈ text) ∧
      syms.Pairwise (fun a b =>
        text.count b < text.count a ∨ (text.count a = text.count b ∧ a < b)) := by
  have hs : ∀ b ∈ text, b < 256 := fun b hb => (hv b hb).2
  have h0 : 0 ∉ text := fun hmem => by have := (hv 0 hmem).1; omega
  obtain ⟨w, hw, hwrep, hbody⟩ := compressBody_eq hs h0 hne
  refine ⟨(encTable text).map (fun e => e.symbol), w.data, ?_, ?_, ?_, ?_, ?_⟩
  · rw [compress_eq_body_of_valid hv, hbody, buildInitialCodes_length_eq_distinct hs]
  · rw [List.length_map, encTable_length, buildInitialCodes_length_eq_distinct hs]
  · exact encTable_symbols_nodup text
  · exact encTable_syms_mem hs
  · exact encTable_syms_sorted text

/-- Witness for C6 at the message "aab". -/
theorem C6_header_shape_witness :
    ∃ syms payload,
      compress_cycle_based [97, 97, 98] =
        .ok (distinctCount [97, 97, 98] :: (syms ++ payload)) ∧
      syms.length = distinctCount [97, 97, 98] ∧
      syms.Nodup ∧
      (∀ c, c ∈ syms ↔ c ∈ [97, 97, 98]) ∧
      syms.Pairwise (fun a b =>
        List.count b [97, 97, 98] < List.count a [97, 97, 98] ∨
          (List.count a [97, 97, 98] = List.count b [97, 97, 98] ∧ a < b)) :=
  C6_header_shape [97, 97, 98] (by decide) (by decide)

/-- C7: for every `K` with `1 ≤ K ≤ 255`, the code length `m + j`
assigned to rank `r` is non-decreasing as the rank increases from 0 to
`K - 1`. -/
theorem C7_rank_monotonic (K r q : Nat) (hK1 : 1 ≤ K) (hK2 : K ≤ 255)
    (hrq : r ≤ q) (hq : q < K) :
    ((generate_cycles_for_codes K).getD r (0, 0)).1 +
      ((generate_cycles_for_codes K).getD r (0, 0)).2 ≤
    ((generate_cycles_for_codes K).getD q (0, 0)).1 +
      ((generate_cycles_for_codes K).getD q (0, 0)).2 := by
  rcases Nat.eq_or_lt_of_le hrq with rfl | hlt
  · exact le_refl _
  · have hpw := generate_cycles_sum_pairwise K
    rw [List.pairwise_iff_getElem] at hpw
    have hlen := generate_cycles_length K
    have h := hpw r q (by omega) (by omega) hlt
    rw [List.getD_eq_getElem _ _ (by omega), List.getD_eq_getElem _ _ (by omega)]
    exact h

/-- Witness for C7 at K = 3, ranks 0 and 2. -/
theorem C7_rank_monotonic_witness :
    ((generate_cycles_for_codes 3).getD 0 (0, 0)).1 +
      ((generate_cycles_for_codes 3).getD 0 (0, 0)).2 ≤
    ((generate_cycles_for_codes 3).getD 2 (0, 0)).1 +
      ((generate_cycles_for_codes 3).getD 2 (0, 0)).2 :=
  C7_rank_monotonic 3 0 2 (by decide) (by decide) (by decide) (by decide)

/-- C8: for every `K`-entry code table (symbols listed in rank order; here
the ranks themselves serve as symbols) and every sequence of ranks drawn
from `0..K-1` in any order, writing the bit-level concatenation of those
ranks' cycle codes with the encoder's own bit writer and decoding it with
the decoder's two-phase scan recovers exactly that sequence of ranks. -/
theorem C8_self_sync (K : Nat) (ranks : List Nat) (hK1 : 1 ≤ K) (hK2 : K ≤ 255)
    (hr : ∀ r ∈ ranks, r < K) :
    decompress_cycle_based
      (K :: (List.range K ++ (ranks.foldl (fun bw r =>
        bw_put_cycle bw ((generate_cycles_for_codes K).getD r (0, 0)).1
          ((generate_cycles_for_codes K).getD r (0, 0)).2) bwInit).data))
      ranks.length = (ranks, .ok) :=
  decompress_ranks K ranks hK1 hr

/-- Witness for C8 at K = 2 and the rank sequence [1, 0, 0]. -/
theorem C8_self_sync_witness :
    decompress_cycle_based
      (2 :: (List.range 2 ++ ([1, 0, 0].foldl (fun bw r =>
        bw_put_cycle bw ((generate_cycles_for_codes 2).getD r (0, 0)).1
          ((generate_cycles_for_codes 2).getD r (0, 0)).2) bwInit).data))
      3 = ([1, 0, 0], .ok) :=
  C8_self_sync 2 [1, 0, 0] (by decide) (by decide) (by decide)

/-- C9: compressing the empty message returns a zero-length buffer, and
decompressing a zero-length buffer with original length 0 returns the
empty message; neither is an error (no abort, status `ok`). -/
theorem C9_empty_input :
    compress_cycle_based [] = .ok [] ∧ decompress_cycle_based [] 0 = ([], .ok) :=
  ⟨compress_nil, decompress_nil 0⟩

/-- C10: for every byte sequence handed to the encoder, the
distinct-symbol count `K` it computes is at most 255, because byte value
0 terminates the scanned string and never enters the frequency table;
consequently the oversized-alphabet branch is unreachable and the encoder
always succeeds. -/
theorem C10_valid_input_never_fails (text : List Nat) (hv : ∀ b ∈ text, b < 256) :
    (buildInitialCodes (text.takeWhile (fun b => b != 0))).length ≤ 255 ∧
    ∃ buf, compress_cycle_based text = .ok buf := by
  constructor
  · apply buildInitialCodes_length_le
    intro hmem
    have := List.mem_takeWhile_imp hmem
    simp at this
  · exact compress_ok_of_bytes hv

/-- Witness for C10 at the message "hi". -/
theorem C10_valid_input_never_fails_witness :
    (buildInitialCodes (([104, 105] : List Nat).takeWhile (fun b => b != 0))).length ≤ 255 ∧
    ∃ buf, compress_cycle_based [104, 105] = .ok buf :=
  C10_valid_input_never_fails [104, 105] (by decide)
